import Mathlib

/-!
# Verification of the tagrep tag-extraction and serialization engine

This file shallowly embeds the core of `pkg/tags/tags.go` (the tag matcher,
duplicate-key / type-coercion logic and the raw/JSON serializers), the
`-format` flag validation of `pkg/tags/config.go`, and the ordering of the
`parse` command's `Run`/`Process` function, and proves properties about them.

Strings are processed at the level of their character lists (`String.data`),
which for the ASCII inputs handled here coincides with Go's byte-level
processing (UTF-8 byte order agrees with code-point order).
-/

namespace Tagrep

/-! ## Character and string helpers (modelling Go's `strings`/`unicode` usage) -/

/-- Models `unicode.IsSpace` (as used by `strings.TrimSpace`) on the
characters Go treats as space: `\t \n \v \f \r space U+0085 U+00A0`. -/
def goIsSpace (c : Char) : Bool :=
  c = ' ' || c = '\t' || c = '\n' || c = Char.ofNat 11 || c = Char.ofNat 12 ||
  c = '\r' || c = Char.ofNat 0x85 || c = Char.ofNat 0xA0

/-- The character class `[A-Za-z0-9_]` of the key group of `tagPattern`. -/
def isWordChar (c : Char) : Bool :=
  ('A' ≤ c && c ≤ 'Z') || ('a' ≤ c && c ≤ 'z') || ('0' ≤ c && c ≤ '9') || c = '_'

/-- Models `strings.ToLower` per character (ASCII range, which covers every
character the parser can feed it in the properties proved here). -/
def goToLowerChar (c : Char) : Char :=
  if 'A' ≤ c && c ≤ 'Z' then Char.ofNat (c.toNat + 32) else c

/-- Models `strings.ToUpper` per character (ASCII range; matched keys consist
of `[A-Za-z0-9_]` only, so this is exact for every key). -/
def goToUpperChar (c : Char) : Char :=
  if 'a' ≤ c && c ≤ 'z' then Char.ofNat (c.toNat - 32) else c

def goToLower (s : String) : String := String.mk (s.data.map goToLowerChar)

def goToUpper (s : String) : String := String.mk (s.data.map goToUpperChar)

/-- Models `strings.TrimSpace`: drop `unicode.IsSpace` characters from both
ends of the string. -/
def goTrim (s : String) : String :=
  String.mk (((s.data.dropWhile goIsSpace).reverse.dropWhile goIsSpace).reverse)

/-- Lexicographic comparison of character lists by code point; on valid
UTF-8 this is the byte-wise `<=` Go's `sort.Strings` and
`encoding/json` use for keys. -/
def charListLE : List Char → List Char → Bool
  | [], _ => true
  | _ :: _, [] => false
  | a :: as, b :: bs =>
    if a.toNat < b.toNat then true
    else if b.toNat < a.toNat then false
    else charListLE as bs

def strLE (a b : String) : Bool := charListLE a.data b.data

/-- Insert a key into an ascending list, keeping it ascending. -/
def insertKey (k : String) : List String → List String
  | [] => [k]
  | x :: xs => if strLE k x then k :: x :: xs else x :: insertKey k xs

/-- Models `sort.Strings` (ascending byte-wise sort) as an insertion sort. -/
def sortStrings : List String → List String
  | [] => []
  | x :: xs => insertKey x (sortStrings xs)

/-- Join a list of strings with a separator (`strings.Join`). -/
def joinSep (sep : String) : List String → String
  | [] => ""
  | [x] => x
  | x :: y :: xs => x ++ sep ++ joinSep sep (y :: xs)

/-- `leadsWith pat l` holds when `pat` is an initial segment of `l`. -/
def leadsWith : List Char → List Char → Bool
  | [], _ => true
  | _ :: _, [] => false
  | a :: as, b :: bs => a = b && leadsWith as bs

/-- `hasSub l pat`: some contiguous run of `l` equals `pat`. -/
def hasSub : List Char → List Char → Bool
  | [], pat => pat.isEmpty
  | c :: rest, pat => leadsWith pat (c :: rest) || hasSub rest pat

/-- Substring test on strings (used to state what an error message contains). -/
def containsSub (hay pat : String) : Bool := hasSub hay.data pat.data

/-! ## The matcher (`tagPattern` and `parseTags` of `pkg/tags/tags.go`)

`tagPattern = (?m)^([A-Za-z0-9_]*)=([^\n\r]*)` is applied with
`FindAllStringSubmatch`.  In multiline mode `^` matches exactly at the start
of the text and after each `\n`, so the scan is equivalent to examining each
`\n`-separated line: the key group greedily takes the maximal run of word
characters (its class excludes `=`, so no backtracking alternative exists),
the literal `=` must follow, and the value group takes everything up to the
first `\r` or the end of the line. -/

def splitLinesAux : List Char → List Char → List (List Char)
  | [], cur => [cur.reverse]
  | c :: rest, cur =>
    if c = '\n' then cur.reverse :: splitLinesAux rest []
    else splitLinesAux rest (c :: cur)

/-- The `\n`-separated lines of a string (the positions where `(?m)^` can
match). -/
def splitLines (s : String) : List String :=
  (splitLinesAux s.data []).map String.mk

/-- The match of `^([A-Za-z0-9_]*)=([^\n\r]*)` against one line, as the pair
(key group, value group). -/
def lineMatch (line : String) : Option (String × String) :=
  match line.data.drop (line.data.takeWhile isWordChar).length with
  | '=' :: rest =>
    some (String.mk (line.data.takeWhile isWordChar),
          String.mk (rest.takeWhile (fun c => c ≠ '\r')))
  | _ => none

/-- All submatches of `tagPattern` in the text, in source order
(`tagPattern.FindAllStringSubmatch(v, -1)`). -/
def tagMatches (v : String) : List (String × String) :=
  (splitLines v).filterMap lineMatch

/-- Append a value to the group of `k` in an association list, creating the
group at the end on first encounter.  This determinizes the *contents* of the
Go map `resp` (which are deterministic; only Go's iteration order is not) as
first-encounter key order. -/
def insertGroup (m : List (String × List String)) (k v : String) :
    List (String × List String) :=
  match m with
  | [] => [(k, [v])]
  | (k', vs) :: rest =>
    if k' = k then (k', vs ++ [v]) :: rest else (k', vs) :: insertGroup rest k v

/-- Models `parseTags`: group the matched values by the *raw* (case-preserved)
key group `m[1]`, in encounter order.  The defensive `len(m) < 3` skip can
never fire (the pattern always yields two capture groups) and is omitted. -/
def parseTags (v : String) : List (String × List String) :=
  (tagMatches v).foldl (fun m kv => insertGroup m kv.1 kv.2) []

/-! ## Data model and configuration -/

/-- The output format constants of `pkg/tags/tags.go`. -/
def FormatUnspecified : String := ""

def FormatJSON : String := "json"

def FormatRaw : String := "raw"

/-- `defaultJSONIndent = "  "` (two spaces). -/
def defaultJSONIndent : String := "  "

/-- `allowedFormats`: `[json, raw]` after `sort.Strings`. -/
def allowedFormats : List String := sortStrings [FormatJSON, FormatRaw]

/-- The `Config` struct of `pkg/tags/config.go`. -/
structure Config where
  Format : String := FormatUnspecified
  ArrayTags : List String := []
  StringTags : List String := []
  BoolTags : List String := []
  OutputAll : Bool := false
  PrettyPrint : Bool := false

/-- The processed value stored for one key (`tagStrs[key]`).  The Go code
stores it as `any`; the only shapes ever stored are a string
(`processTagValues` returning `last`), a bool, and a `[]string`, which this
discriminated union makes explicit. -/
inductive TagValue where
  | str (s : String)
  | bool (b : Bool)
  | arr (a : List String)
deriving DecidableEq, Repr

/-! ## Boolean coercion and duplicate-key processing -/

/-- Models `strconv.ParseBool`, accepted forms and error message included. -/
def strconvParseBool (s : String) : Except String Bool :=
  if s = "1" || s = "t" || s = "T" || s = "TRUE" || s = "true" || s = "True" then
    .ok true
  else if s = "0" || s = "f" || s = "F" || s = "FALSE" || s = "false" || s = "False" then
    .ok false
  else
    .error ("strconv.ParseBool: parsing \"" ++ s ++ "\": invalid syntax")

/-- Models `parseBoolValue`: trim and lower-case the value, accept the
extended `yes`/`y`/`no`/`n` forms, otherwise defer to `strconv.ParseBool`. -/
def parseBoolValue (v : String) : Except String Bool :=
  let vtl := goToLower (goTrim v)
  if vtl = "yes" then .ok true
  else if vtl = "y" then .ok true
  else if vtl = "no" then .ok false
  else if vtl = "n" then .ok false
  else
    match strconvParseBool vtl with
    | .ok b => .ok b
    | .error e => .error ("failed to parse " ++ vtl ++ " as bool: " ++ e)

/-- Models `processTagValues`.  `ts[len(ts)-1]` is embedded as
`ts.getLastD ""`; every caller passes a group produced by `parseTags`, which
is never empty.  (The duplicate-key log line is an effect-free diagnostic and
has no counterpart in the embedding.) -/
def processTagValues (cfg : Config) (key : String) (ts : List String) :
    Except String TagValue :=
  if cfg.ArrayTags.contains key then .ok (.arr ts)
  else
    let last := ts.getLastD ""
    if cfg.StringTags.contains key then .ok (.str last)
    else if cfg.BoolTags.contains key then
      match parseBoolValue last with
      | .error e => .error ("failed to parse bool: " ++ e)
      | .ok b => .ok (.bool b)
    else .ok (.str last)

/-- Membership in `sets.Union(cfg.ArrayTags, cfg.StringTags, cfg.BoolTags)`
as tested by `slices.Contains(targetTags, key)`: the union's membership is
exactly membership in the concatenation. -/
def targetContains (cfg : Config) (key : String) : Bool :=
  (cfg.ArrayTags ++ cfg.StringTags ++ cfg.BoolTags).contains key

/-- `tagStrs[key] = v`: overwrite the binding of `key` if present, otherwise
append it.  (Position is irrelevant: both serializers sort the keys.) -/
def upsert (m : List (String × TagValue)) (k : String) (v : TagValue) :
    List (String × TagValue) :=
  match m with
  | [] => [(k, v)]
  | (k', v') :: rest =>
    if k' = k then (k, v) :: rest else (k', v') :: upsert rest k v

/-- The keys of an association list. -/
def keysOf (m : List (String × TagValue)) : List String := m.map Prod.fst

/-- Association-list lookup with a default. -/
def lookupD (m : List (String × TagValue)) (k : String) : TagValue :=
  match m with
  | [] => .str ""
  | (k', v) :: rest => if k' = k then v else lookupD rest k

/-- The loop body of `ParseTags`: for each raw-key group, upper-case the key,
skip it when `!cfg.OutputAll && !slices.Contains(targetTags, key)`, otherwise
process its values and store the result under the upper-cased key.  The Go
map range order is determinized as the association-list (first-encounter)
order of `parseTags`. -/
def buildTagStrs (cfg : Config) :
    List (String × List String) → List (String × TagValue) →
    Except String (List (String × TagValue))
  | [], acc => .ok acc
  | (k, t) :: rest, acc =>
    if !cfg.OutputAll && !targetContains cfg (goToUpper k) then
      buildTagStrs cfg rest acc
    else
      match processTagValues cfg (goToUpper k) t with
      | .error e => .error ("failed to process duplicate keys: " ++ e)
      | .ok tv => buildTagStrs cfg rest (upsert acc (goToUpper k) tv)

/-! ## Serializers -/

/-- `escapeCommas`: `strings.ReplaceAll(v, ",", `\,`)` (single-character
pattern, so a character-wise fold). -/
def escapeCommas (v : String) : String :=
  String.mk (v.data.foldr (fun c acc => if c = ',' then '\\' :: ',' :: acc else c :: acc) [])

/-- Models `stringifyRaw` on the three value shapes that can be stored
(string, bool, `[]string`); on these the Go function never returns an
error. -/
def stringifyRaw : TagValue → String
  | .str s => s
  | .bool b => if b then "true" else "false"
  | .arr a => joinSep "," (a.map escapeCommas)

/-- The escaping of one character by Go's `encoding/json` string encoder
(default encoder, HTML escaping on). -/
def jsonEscapeChar (c : Char) : List Char :=
  if c = '"' then ['\\', '"']
  else if c = '\\' then ['\\', '\\']
  else if c = '\n' then ['\\', 'n']
  else if c = '\r' then ['\\', 'r']
  else if c = '\t' then ['\\', 't']
  else if c = '<' then ['\\', 'u', '0', '0', '3', 'c']
  else if c = '>' then ['\\', 'u', '0', '0', '3', 'e']
  else if c = '&' then ['\\', 'u', '0', '0', '2', '6']
  else if c.toNat < 0x20 then
    ['\\', 'u', '0', '0', (Nat.digitChar (c.toNat / 16)), (Nat.digitChar (c.toNat % 16))]
  else if c.toNat = 0x2028 then ['\\', 'u', '2', '0', '2', '8']
  else if c.toNat = 0x2029 then ['\\', 'u', '2', '0', '2', '9']
  else [c]

/-- A Go JSON string literal: `"` + escaped characters + `"`. -/
def goJSONString (s : String) : String :=
  "\"" ++ String.mk (s.data.foldr (fun c acc => jsonEscapeChar c ++ acc) []) ++ "\""

/-- Compact (`json.Marshal`) encoding of one stored value. -/
def jsonValueCompact : TagValue → String
  | .str s => goJSONString s
  | .bool b => if b then "true" else "false"
  | .arr a => "[" ++ joinSep "," (a.map goJSONString) ++ "]"

/-- `json.Marshal` of the `map[string]any`: keys sorted byte-wise, members
`"key":value` joined by commas, no whitespace. -/
def jsonMarshal (ts : List (String × TagValue)) : String :=
  "\x7b" ++
    joinSep ","
      ((sortStrings (keysOf ts)).map fun k =>
        goJSONString k ++ ":" ++ jsonValueCompact (lookupD ts k)) ++
  "\x7d"

/-- `n` copies of the two-space indent unit. -/
def indentOf : Nat → String
  | 0 => ""
  | n + 1 => indentOf n ++ defaultJSONIndent

/-- `json.MarshalIndent` encoding of one stored value at nesting depth
`depth`. -/
def jsonValueIndent (depth : Nat) : TagValue → String
  | .str s => goJSONString s
  | .bool b => if b then "true" else "false"
  | .arr [] => "[]"
  | .arr (a :: as) =>
    "[\n" ++
      joinSep ",\n" ((a :: as).map fun s => indentOf (depth + 1) ++ goJSONString s) ++
    "\n" ++ indentOf depth ++ "]"

/-- `json.MarshalIndent(ts, "", "  ")` of the `map[string]any`: keys sorted
byte-wise, one member per line at one indent unit, `": "` separating key and
value. -/
def jsonMarshalIndent (ts : List (String × TagValue)) : String :=
  match sortStrings (keysOf ts) with
  | [] => "\x7b\x7d"
  | k :: ks =>
    "\x7b\n" ++
      joinSep ",\n"
        ((k :: ks).map fun k' =>
          indentOf 1 ++ goJSONString k' ++ ": " ++ jsonValueIndent 1 (lookupD ts k')) ++
    "\n\x7d"

/-- Models the `format` method: the `switch p.cfg.Format` with the raw
builder loop over sorted keys, the JSON branches, the `FormatUnspecified`
fall-through to the common `unknown error` return, and the `default`
invalid-format error.  On the stored value shapes `stringifyRaw` and the
builder writes never fail, so the raw branch's `merr` is always `nil`. -/
def format (cfg : Config) (ts : List (String × TagValue)) : Except String String :=
  if cfg.Format = FormatRaw then
    .ok ((sortStrings (keysOf ts)).foldl
      (fun acc k => acc ++ k ++ "=" ++ stringifyRaw (lookupD ts k) ++ "\n") "")
  else if cfg.Format = FormatJSON then
    .ok (if cfg.PrettyPrint then jsonMarshalIndent ts else jsonMarshal ts)
  else if cfg.Format = FormatUnspecified then
    .error "unknown error formatting tags"
  else
    .error ("format \x27" ++ cfg.Format ++ "\x27 is invalid")

/-- Models `ParseTags`, keeping Go's two return values: the result string and
the optional error.  Both error paths return the zero-value `""` as the
result, mirroring `return "", fmt.Errorf(...)`. -/
def ParseTags (cfg : Config) (v : String) : String × Option String :=
  match buildTagStrs cfg (parseTags v) [] with
  | .error e => ("", some e)
  | .ok tagStrs =>
    match format cfg tagStrs with
    | .error e => ("", some ("failed to format tags: " ++ e))
    | .ok r => (r, none)

/-! ## The flag layer and command ordering

`pkg/tags/config.go` registers the `-format` flag and, in `AfterParse`,
normalizes it (`strings.ToLower(strings.TrimSpace(...))`) and rejects values
outside `allowedFormats`.  The `parse` command's `Run` parses and validates
all flags (wrapping failures as `failed to parse flags: ...`) before it
creates the platform client; only then does `Process` fetch the body and call
`ParseTags` (wrapping its error as `failed to parse tags: ...`). -/

/-- The `-format` part of `Config.RegisterFlags`'s `AfterParse` hook. -/
def afterParseFormat (raw : String) : Except String String :=
  let f := goToLower (goTrim raw)
  if allowedFormats.contains f then .ok f
  else .error ("unsupported value for format flag: " ++ f)

/-- The `Run`/`Process` ordering of the `parse` command, specialized to the
core: validate the flags first, and only on success fetch the body and call
`ParseTags` with the normalized format. -/
def runParseCommand (cfg : Config) (body : String) : Except String String :=
  match afterParseFormat cfg.Format with
  | .error e => .error ("failed to parse flags: " ++ e)
  | .ok f =>
    match ParseTags { cfg with Format := f } body with
    | (_, some e) => .error ("failed to parse tags: " ++ e)
    | (r, none) => .ok r

/-! ## Order properties of `sortStrings` -/

theorem charListLE_total (as bs : List Char) :
    charListLE as bs = true ∨ charListLE bs as = true := by
  induction as generalizing bs with
  | nil => left; rfl
  | cons a as ih =>
    cases bs with
    | nil => right; rfl
    | cons b bs =>
      simp only [charListLE]
      rcases Nat.lt_trichotomy a.toNat b.toNat with h | h | h
      · left; simp [h]
      · have h1 : ¬ a.toNat < b.toNat := by omega
        have h2 : ¬ b.toNat < a.toNat := by omega
        simpa [h1, h2] using ih bs
      · right; simp [h]

theorem charListLE_trans : ∀ as bs cs : List Char,
    charListLE as bs = true → charListLE bs cs = true → charListLE as cs = true
  | [], _, _, _, _ => rfl
  | _ :: _, [], _, h1, _ => by simp [charListLE] at h1
  | _ :: _, _ :: _, [], _, h2 => by simp [charListLE] at h2
  | a :: as, b :: bs, c :: cs, h1, h2 => by
    simp only [charListLE] at h1 h2 ⊢
    split at h1
    case isTrue hab =>
      split at h2
      case isTrue hbc => simp [show a.toNat < c.toNat by omega]
      case isFalse hbc =>
        split at h2
        case isTrue => simp at h2
        case isFalse hcb => simp [show a.toNat < c.toNat by omega]
    case isFalse hab =>
      split at h1
      case isTrue => simp at h1
      case isFalse hba =>
        split at h2
        case isTrue hbc => simp [show a.toNat < c.toNat by omega]
        case isFalse hbc =>
          split at h2
          case isTrue => simp at h2
          case isFalse hcb =>
            have h3 : ¬ a.toNat < c.toNat := by omega
            have h4 : ¬ c.toNat < a.toNat := by omega
            simpa [h3, h4] using charListLE_trans as bs cs h1 h2

theorem strLE_total (a b : String) : strLE a b = true ∨ strLE b a = true :=
  charListLE_total a.data b.data

theorem strLE_trans {a b c : String} (h1 : strLE a b = true) (h2 : strLE b c = true) :
    strLE a c = true :=
  charListLE_trans a.data b.data c.data h1 h2

theorem mem_insertKey {y k : String} : ∀ {l : List String},
    y ∈ insertKey k l ↔ y = k ∨ y ∈ l := by
  intro l
  induction l with
  | nil => simp [insertKey]
  | cons x xs ih =>
    simp only [insertKey]
    split
    · simp [or_comm, or_assoc, or_left_comm]
    · simp only [List.mem_cons, ih]
      tauto

theorem insertKey_perm (k : String) (l : List String) :
    List.Perm (insertKey k l) (k :: l) := by
  induction l with
  | nil => exact List.Perm.refl _
  | cons x xs ih =>
    simp only [insertKey]
    split
    · exact List.Perm.refl _
    · exact (List.Perm.cons x ih).trans (List.Perm.swap k x xs)

theorem pairwise_insertKey (k : String) {l : List String}
    (h : List.Pairwise (fun a b => strLE a b = true) l) :
    List.Pairwise (fun a b => strLE a b = true) (insertKey k l) := by
  induction l with
  | nil => simp [insertKey]
  | cons x xs ih =>
    rw [List.pairwise_cons] at h
    simp only [insertKey]
    split
    case isTrue hk =>
      rw [List.pairwise_cons]
      refine ⟨?_, List.pairwise_cons.mpr h⟩
      intro y hy
      rcases List.mem_cons.mp hy with rfl | hy
      · exact hk
      · exact strLE_trans hk (h.1 y hy)
    case isFalse hk =>
      rw [List.pairwise_cons]
      refine ⟨?_, ih h.2⟩
      intro y hy
      rcases mem_insertKey.mp hy with heq | hy
      · rw [heq]; exact (strLE_total k x).resolve_left hk
      · exact h.1 y hy

/-- The key sequence both serializers emit is weakly ascending. -/
theorem sortStrings_pairwise (l : List String) :
    List.Pairwise (fun a b => strLE a b = true) (sortStrings l) := by
  induction l with
  | nil => simp [sortStrings]
  | cons x xs ih => exact pairwise_insertKey x ih

/-- The key sequence both serializers emit is a permutation of the stored
keys: one entry per selected key, none dropped, none invented. -/
theorem sortStrings_perm (l : List String) : List.Perm (sortStrings l) l := by
  induction l with
  | nil => exact List.Perm.refl _
  | cons x xs ih =>
    exact (insertKey_perm x (sortStrings xs)).trans (List.Perm.cons x ih)

/-! ## Properties of the selection loop -/

theorem keysOf_upsert {k : String} {v : TagValue} :
    ∀ {m : List (String × TagValue)} {k' : String},
      k' ∈ keysOf (upsert m k v) ↔ k' ∈ keysOf m ∨ k' = k := by
  intro m
  induction m with
  | nil => simp [upsert, keysOf]
  | cons x xs ih =>
    intro k'
    obtain ⟨kx, vx⟩ := x
    simp only [upsert]
    split
    case isTrue h => subst h; simp [keysOf]; tauto
    case isFalse h =>
      simp only [keysOf, List.map_cons, List.mem_cons] at *
      rw [ih]
      tauto

theorem buildTagStrs_skip_all {cfg : Config} (hall : cfg.OutputAll = false)
    (ha : cfg.ArrayTags = []) (hs : cfg.StringTags = []) (hb : cfg.BoolTags = []) :
    ∀ groups acc, buildTagStrs cfg groups acc = .ok acc := by
  intro groups
  induction groups with
  | nil => intro acc; rfl
  | cons g rest ih =>
    intro acc
    obtain ⟨k, t⟩ := g
    simp only [buildTagStrs]
    rw [if_pos]
    · exact ih acc
    · simp [hall, targetContains, ha, hs, hb]

theorem mem_keysOf_buildTagStrs {cfg : Config} :
    ∀ (groups : List (String × List String)) (acc m : List (String × TagValue)),
      buildTagStrs cfg groups acc = .ok m →
      ∀ k, k ∈ keysOf m ↔ k ∈ keysOf acc ∨
        ((∃ g ∈ groups, goToUpper g.1 = k) ∧
          (cfg.OutputAll = true ∨ targetContains cfg k = true)) := by
  intro groups
  induction groups with
  | nil =>
    intro acc m h k
    simp only [buildTagStrs, Except.ok.injEq] at h
    subst h
    simp
  | cons g rest ih =>
    intro acc m h k
    obtain ⟨k0, t⟩ := g
    simp only [buildTagStrs] at h
    split at h
    case isTrue hskip =>
      simp only [Bool.and_eq_true, Bool.not_eq_true'] at hskip
      rw [ih acc m h k]
      constructor
      · rintro (hacc | ⟨⟨g, hg, hgk⟩, hsel⟩)
        · exact Or.inl hacc
        · exact Or.inr ⟨⟨g, List.mem_cons_of_mem _ hg, hgk⟩, hsel⟩
      · rintro (hacc | ⟨⟨g, hg, hgk⟩, hsel⟩)
        · exact Or.inl hacc
        · rcases List.mem_cons.mp hg with rfl | hg'
          · exfalso
            rcases hsel with hout | htc
            · rw [hskip.1] at hout; exact Bool.false_ne_true hout
            · rw [← hgk] at htc; rw [hskip.2] at htc; exact Bool.false_ne_true htc
          · exact Or.inr ⟨⟨g, hg', hgk⟩, hsel⟩
    case isFalse hsel =>
      simp only [Bool.and_eq_true, Bool.not_eq_true', not_and] at hsel
      have hsel' : cfg.OutputAll = true ∨ targetContains cfg (goToUpper k0) = true := by
        cases hout : cfg.OutputAll with
        | true => exact Or.inl rfl
        | false =>
          cases htc : targetContains cfg (goToUpper k0) with
          | true => exact Or.inr rfl
          | false => exact absurd htc (hsel hout)
      rcases hp : processTagValues cfg (goToUpper k0) t with e | tv
      · rw [hp] at h; exact absurd h (by simp)
      · rw [hp] at h
        replace h : buildTagStrs cfg rest (upsert acc (goToUpper k0) tv) = .ok m := h
        rw [ih _ m h k, keysOf_upsert]
        constructor
        · rintro ((hacc | heq) | ⟨⟨g, hg, hgk⟩, hs'⟩)
          · exact Or.inl hacc
          · subst heq
            exact Or.inr ⟨⟨(k0, t), List.mem_cons_self _ _, rfl⟩, hsel'⟩
          · exact Or.inr ⟨⟨g, List.mem_cons_of_mem _ hg, hgk⟩, hs'⟩
        · rintro (hacc | ⟨⟨g, hg, hgk⟩, hs'⟩)
          · exact Or.inl (Or.inl hacc)
          · rcases List.mem_cons.mp hg with rfl | hg'
            · exact Or.inl (Or.inr hgk.symm)
            · exact Or.inr ⟨⟨g, hg', hgk⟩, hs'⟩

/-! ## Properties of the matcher and of the JSON encoders -/

theorem data_append (a b : String) : (a ++ b).data = a.data ++ b.data := rfl

theorem drop_takeWhile_length (p : Char → Bool) (l : List Char) :
    l.drop (l.takeWhile p).length = l.dropWhile p := by
  induction l with
  | nil => rfl
  | cons c cs ih =>
    by_cases h : p c
    · simp [List.takeWhile_cons, List.dropWhile_cons, h, ih]
    · simp [List.takeWhile_cons, List.dropWhile_cons, h]

/-- A successful line match decomposes the line as the matched key, the `=`,
and a remainder whose `\r`-free prefix is the matched value; the key consists
of word characters only. -/
theorem lineMatch_decomp {l k val : String} (h : lineMatch l = some (k, val)) :
    ∃ r : List Char, l.data = k.data ++ '=' :: r ∧
      val.data = r.takeWhile (fun c => c ≠ '\r') ∧
      ∀ c ∈ k.data, isWordChar c = true := by
  unfold lineMatch at h
  split at h
  case h_1 rest heq =>
    simp only [Option.some.injEq, Prod.mk.injEq] at h
    obtain ⟨hk, hv⟩ := h
    refine ⟨rest, ?_, ?_, ?_⟩
    · rw [← hk]
      have h2 := List.takeWhile_append_dropWhile (p := isWordChar) (l := l.data)
      rw [← drop_takeWhile_length isWordChar l.data, heq] at h2
      exact h2.symm
    · rw [← hv]
    · intro c hc
      rw [← hk] at hc
      exact List.mem_takeWhile_imp hc
  case h_2 => exact absurd h (by simp)

theorem digitChar_lt16_ne_newline : ∀ n < 16, Nat.digitChar n ≠ '\n' := by decide

theorem newline_not_mem_jsonEscapeChar (c : Char) : '\n' ∉ jsonEscapeChar c := by
  unfold jsonEscapeChar
  by_cases h1 : c = '"'
  · rw [if_pos h1]; decide
  rw [if_neg h1]
  by_cases h2 : c = '\\'
  · rw [if_pos h2]; decide
  rw [if_neg h2]
  by_cases h3 : c = '\n'
  · rw [if_pos h3]; decide
  rw [if_neg h3]
  by_cases h4 : c = '\r'
  · rw [if_pos h4]; decide
  rw [if_neg h4]
  by_cases h5 : c = '\t'
  · rw [if_pos h5]; decide
  rw [if_neg h5]
  by_cases h6 : c = '<'
  · rw [if_pos h6]; decide
  rw [if_neg h6]
  by_cases h7 : c = '>'
  · rw [if_pos h7]; decide
  rw [if_neg h7]
  by_cases h8 : c = '&'
  · rw [if_pos h8]; decide
  rw [if_neg h8]
  by_cases h9 : c.toNat < 0x20
  · rw [if_pos h9]
    simp only [List.mem_cons, List.not_mem_nil, or_false]
    rintro (h | h | h | h | h | h)
    · exact absurd h (by decide)
    · exact absurd h (by decide)
    · exact absurd h (by decide)
    · exact absurd h (by decide)
    · exact digitChar_lt16_ne_newline _ (by omega) h.symm
    · exact digitChar_lt16_ne_newline _ (by omega) h.symm
  rw [if_neg h9]
  by_cases h10 : c.toNat = 0x2028
  · rw [if_pos h10]; decide
  rw [if_neg h10]
  by_cases h11 : c.toNat = 0x2029
  · rw [if_pos h11]; decide
  rw [if_neg h11]
  simp only [List.mem_singleton]
  intro h
  exact h3 h.symm

theorem newline_not_mem_escFold :
    ∀ l : List Char, '\n' ∉ l.foldr (fun c acc => jsonEscapeChar c ++ acc) []
  | [] => by simp
  | c :: cs => by
    simp only [List.foldr_cons]
    intro hmem
    rcases List.mem_append.mp hmem with h | h
    · exact newline_not_mem_jsonEscapeChar c h
    · exact newline_not_mem_escFold cs h

theorem newline_not_mem_goJSONString (s : String) : '\n' ∉ (goJSONString s).data := by
  unfold goJSONString
  rw [data_append, data_append]
  intro hmem
  rcases List.mem_append.mp hmem with h | h
  · rcases List.mem_append.mp h with h' | h'
    · exact absurd h' (by decide)
    · exact newline_not_mem_escFold s.data h'
  · exact absurd h (by decide)

theorem newline_not_mem_joinSep (sep : String) (hsep : '\n' ∉ sep.data) :
    ∀ l : List String, (∀ s ∈ l, '\n' ∉ s.data) → '\n' ∉ (joinSep sep l).data
  | [], _ => by simp [joinSep, String.data]
  | [x], h => h x (List.mem_singleton.mpr rfl)
  | x :: y :: xs, h => by
    simp only [joinSep, data_append]
    intro hmem
    rcases List.mem_append.mp hmem with h2 | h2
    · rcases List.mem_append.mp h2 with h3 | h3
      · exact h x (by simp) h3
      · exact hsep h3
    · exact newline_not_mem_joinSep sep hsep (y :: xs)
        (fun s hs => h s (List.mem_cons_of_mem _ hs)) h2

theorem newline_not_mem_jsonValueCompact (v : TagValue) :
    '\n' ∉ (jsonValueCompact v).data := by
  cases v with
  | str s => exact newline_not_mem_goJSONString s
  | bool b => cases b <;> decide
  | arr a =>
    unfold jsonValueCompact
    rw [data_append, data_append]
    intro hmem
    rcases List.mem_append.mp hmem with h | h
    · rcases List.mem_append.mp h with h' | h'
      · exact absurd h' (by decide)
      · refine newline_not_mem_joinSep "," (by decide) _ ?_ h'
        intro s hs
        rcases List.mem_map.mp hs with ⟨t, _, rfl⟩
        exact newline_not_mem_goJSONString t
    · exact absurd h (by decide)

/-- The compact (`PrettyPrint = false`) JSON encoding is a single line: it
contains no newline character. -/
theorem newline_not_mem_jsonMarshal (ts : List (String × TagValue)) :
    '\n' ∉ (jsonMarshal ts).data := by
  unfold jsonMarshal
  rw [data_append, data_append]
  intro hmem
  rcases List.mem_append.mp hmem with h | h
  · rcases List.mem_append.mp h with h' | h'
    · exact absurd h' (by decide)
    · refine newline_not_mem_joinSep "," (by decide) _ ?_ h'
      intro s hs
      rcases List.mem_map.mp hs with ⟨k, _, rfl⟩
      rw [data_append, data_append]
      intro h2
      rcases List.mem_append.mp h2 with h3 | h3
      · rcases List.mem_append.mp h3 with h4 | h4
        · exact newline_not_mem_goJSONString k h4
        · exact absurd h4 (by decide)
      · exact newline_not_mem_jsonValueCompact _ h3
  · exact absurd h (by decide)

/-! ## The claims -/

/-- C1 is false on the code: `parseTags` groups values by the *raw*,
case-preserved key, so `tag_1=x` and `TAG_1=y` form two separate groups; they
are never merged into one group in encounter order, and with `TAG_1` declared
an array tag the output is never `TAG_1=x,y`.  (Which single value survives
depends on Go's map iteration order; under every order the merged output is
impossible, and in this embedding's first-encounter order the result is
`TAG_1=y`.) -/
theorem C1_counterexample :
    parseTags "tag_1=x\nTAG_1=y" = [("tag_1", ["x"]), ("TAG_1", ["y"])] ∧
    ParseTags { Format := FormatRaw, ArrayTags := ["TAG_1"], OutputAll := true }
        "tag_1=x\nTAG_1=y" ≠ ("TAG_1=x,y\n", none) := by
  refine ⟨by decide, by decide⟩

/-- C1 amended: grouping is computed over the entire document, in encounter
order, by the *raw* (case-preserved) key; the key is upper-cased only when the
processed result is stored into the output map, so every output key is the
upper-casing of some raw matched key, and mixed-case duplicates of the same
logical key land in distinct groups of which one overwrites the other (in
this embedding's determinization of Go's map order, the group of the raw key
encountered later wins). -/
theorem C1_amended :
    parseTags "TAG_1=x\nOTHER=z\nTAG_1=y" = [("TAG_1", ["x", "y"]), ("OTHER", ["z"])] ∧
    ParseTags { Format := FormatRaw, ArrayTags := ["TAG_1"], OutputAll := true }
        "tag_1=x\nTAG_1=y" = ("TAG_1=y\n", none) ∧
    (∀ (cfg : Config) (v : String) (m : List (String × TagValue)),
      buildTagStrs cfg (parseTags v) [] = .ok m →
      ∀ k ∈ keysOf m, ∃ g ∈ parseTags v, goToUpper g.1 = k) := by
  refine ⟨by decide, by decide, ?_⟩
  intro cfg v m h k hk
  have := (mem_keysOf_buildTagStrs (parseTags v) [] m h k).mp hk
  rcases this with hacc | ⟨hex, _⟩
  · simp [keysOf] at hacc
  · exact hex

theorem C1_witness :
    ∃ g ∈ parseTags "a=1", goToUpper g.1 = "A" :=
  C1_amended.2.2 { Format := FormatJSON, OutputAll := true } "a=1"
    [("A", TagValue.str "1")] rfl "A" (by decide)

/-- C2: a `KEY=value` construct is matched only at the start of a line: every
match decomposes some `\n`-separated line of the input as `key=value...`
with the key at the very start of the line (made of `[A-Za-z0-9_]` only), and
on the two-line example `hello TAG=x\nTAG2=y` only `TAG2=y` is extracted. -/
theorem C2_line_start_anchoring :
    (∀ (v k val : String), (k, val) ∈ tagMatches v →
      ∃ l ∈ splitLines v, ∃ r : List Char,
        l.data = k.data ++ '=' :: r ∧
        val.data = r.takeWhile (fun c => c ≠ '\r') ∧
        ∀ c ∈ k.data, isWordChar c = true) ∧
    tagMatches "hello TAG=x\nTAG2=y" = [("TAG2", "y")] := by
  refine ⟨?_, by decide⟩
  intro v k val hmem
  rcases List.mem_filterMap.mp hmem with ⟨l, hl, hm⟩
  exact ⟨l, hl, lineMatch_decomp hm⟩

theorem C2_witness :
    ∃ l ∈ splitLines "hello TAG=x\nTAG2=y", ∃ r : List Char,
      l.data = "TAG2".data ++ '=' :: r ∧
      "y".data = r.takeWhile (fun c => c ≠ '\r') ∧
      ∀ c ∈ "TAG2".data, isWordChar c = true :=
  C2_line_start_anchoring.1 "hello TAG=x\nTAG2=y" "TAG2" "y" (by decide)

/-- C3: boolean coercion depends only on the whitespace-trimmed, lower-cased
value (hence is case-insensitive and trimming-insensitive), and on the
canonical forms `1,t,true,0,f,false` plus the extended forms `yes,y,no,n` it
returns the stated booleans; in particular the eight inputs
`yes,0,FALSE,True,t,y,n,no` coerce to
`true,false,false,true,true,true,false,false`. -/
theorem C3_bool_coercion :
    (∀ v w : String, goToLower (goTrim v) = goToLower (goTrim w) →
      parseBoolValue v = parseBoolValue w) ∧
    parseBoolValue "yes" = .ok true ∧ parseBoolValue "0" = .ok false ∧
    parseBoolValue "FALSE" = .ok false ∧ parseBoolValue "True" = .ok true ∧
    parseBoolValue "t" = .ok true ∧ parseBoolValue "y" = .ok true ∧
    parseBoolValue "n" = .ok false ∧ parseBoolValue "no" = .ok false ∧
    parseBoolValue "1" = .ok true ∧ parseBoolValue "true" = .ok true ∧
    parseBoolValue "f" = .ok false ∧ parseBoolValue "false" = .ok false := by
  refine ⟨?_, rfl, rfl, rfl, rfl, rfl, rfl, rfl, rfl, rfl, rfl, rfl, rfl⟩
  intro v w h
  unfold parseBoolValue
  rw [h]

theorem C3_witness : parseBoolValue " TRUE\t" = parseBoolValue "true" :=
  C3_bool_coercion.1 " TRUE\t" "true" (by decide)

/-- C4 is partly false on the code: the bool-coercion error for key `MYKEY`
with raw value `MAYBE` is the fixed chain naming the *normalized* value
`maybe`; the message contains neither the offending key `MYKEY` nor the raw
uncoerced value `MAYBE`. -/
theorem C4_counterexample :
    ParseTags { Format := FormatRaw, BoolTags := ["MYKEY"], OutputAll := true }
        "GOODKEY=val\nMYKEY=MAYBE" =
      ("", some ("failed to process duplicate keys: failed to parse bool: " ++
        "failed to parse maybe as bool: strconv.ParseBool: parsing \"maybe\": invalid syntax")) ∧
    containsSub ("failed to process duplicate keys: failed to parse bool: " ++
      "failed to parse maybe as bool: strconv.ParseBool: parsing \"maybe\": invalid syntax")
      "MYKEY" = false ∧
    containsSub ("failed to process duplicate keys: failed to parse bool: " ++
      "failed to parse maybe as bool: strconv.ParseBool: parsing \"maybe\": invalid syntax")
      "MAYBE" = false := by
  refine ⟨by decide, by decide, by decide⟩

/-- C4 amended: a failed boolean coercion aborts the whole parse — whenever
`ParseTags` reports an error its result string is empty, so no partial output
is emitted — and the error names the normalized (trimmed, lower-cased) value,
not the offending key or the raw value. -/
theorem C4_amended :
    (∀ (cfg : Config) (v e : String),
      (ParseTags cfg v).2 = some e → (ParseTags cfg v).1 = "") ∧
    (ParseTags { Format := FormatRaw, BoolTags := ["MYKEY"], OutputAll := true }
        "GOODKEY=val\nMYKEY=MAYBE").2 =
      some ("failed to process duplicate keys: failed to parse bool: failed to parse " ++
        goToLower (goTrim "MAYBE") ++ " as bool: strconv.ParseBool: parsing \"" ++
        goToLower (goTrim "MAYBE") ++ "\": invalid syntax") := by
  constructor
  · intro cfg v e
    unfold ParseTags
    split
    · intro _; rfl
    · split
      · intro _; rfl
      · intro h; simp at h
  · decide

theorem C4_witness :
    (ParseTags { Format := FormatRaw, BoolTags := ["K"], OutputAll := true } "K=zzz").1 = "" :=
  C4_amended.1 { Format := FormatRaw, BoolTags := ["K"], OutputAll := true } "K=zzz"
    ("failed to process duplicate keys: failed to parse bool: " ++
      "failed to parse zzz as bool: strconv.ParseBool: parsing \"zzz\": invalid syntax")
    (by decide)

theorem getLastD_single (x d : String) : ([x] : List String).getLastD d = x := rfl

/-- C5: a key declared an array tag gets the full ordered value sequence even
when it is a singleton; for a non-array key the result depends only on the
last value in encounter order, and for a non-array non-bool key it is exactly
that last value; concretely, for `K=a\nK=b\nK=c` the group is
`["a","b","c"]`, giving `["a","b","c"]` when `K` is an array tag and `"c"`
when `K` is undeclared. -/
theorem C5_array_and_last_wins :
    (∀ (cfg : Config) (key : String) (ts : List String),
      key ∈ cfg.ArrayTags → processTagValues cfg key ts = .ok (.arr ts)) ∧
    (∀ (cfg : Config) (key : String) (ts : List String),
      key ∉ cfg.ArrayTags →
      processTagValues cfg key ts = processTagValues cfg key [ts.getLastD ""]) ∧
    (∀ (cfg : Config) (key : String) (ts : List String),
      key ∉ cfg.ArrayTags → key ∉ cfg.BoolTags →
      processTagValues cfg key ts = .ok (.str (ts.getLastD ""))) ∧
    parseTags "K=a\nK=b\nK=c" = [("K", ["a", "b", "c"])] ∧
    processTagValues { Format := FormatRaw, ArrayTags := ["K"] } "K" ["a", "b", "c"] =
      .ok (.arr ["a", "b", "c"]) ∧
    processTagValues { Format := FormatRaw } "K" ["a", "b", "c"] = .ok (.str "c") ∧
    processTagValues { Format := FormatRaw, ArrayTags := ["K"] } "K" ["a"] = .ok (.arr ["a"]) := by
  refine ⟨?_, ?_, ?_, by decide, rfl, rfl, rfl⟩
  · intro cfg key ts h
    simp [processTagValues, h]
  · intro cfg key ts h
    simp [processTagValues, h, getLastD_single]
  · intro cfg key ts h1 h2
    simp [processTagValues, h1, h2]

theorem C5_witness :
    processTagValues { Format := FormatRaw, ArrayTags := ["Z"] } "Z" ["only"] =
      .ok (.arr ["only"]) ∧
    processTagValues { Format := FormatRaw, StringTags := ["W"] } "W" ["x", "z"] =
      processTagValues { Format := FormatRaw, StringTags := ["W"] } "W"
        [(["x", "z"] : List String).getLastD ""] ∧
    processTagValues { Format := FormatRaw } "Q" ["p", "q"] =
      .ok (.str ((["p", "q"] : List String).getLastD "")) :=
  ⟨C5_array_and_last_wins.1 _ "Z" ["only"] (by decide),
   C5_array_and_last_wins.2.1 _ "W" ["x", "z"] (by decide),
   C5_array_and_last_wins.2.2.1 _ "Q" ["p", "q"] (by decide) (by decide)⟩

/-- C6: with `OutputAll = false` the keys of the output map are exactly the
upper-cased extracted keys that occur in `ArrayTags ++ StringTags ++
BoolTags` (all others are dropped without error), and with all three lists
empty and raw format the output is `("", no error)` for every input text. -/
theorem C6_selection_filtering :
    (∀ (cfg : Config) (v : String) (m : List (String × TagValue)),
      cfg.OutputAll = false →
      buildTagStrs cfg (parseTags v) [] = .ok m →
      ∀ k, k ∈ keysOf m ↔
        (∃ g ∈ parseTags v, goToUpper g.1 = k) ∧ targetContains cfg k = true) ∧
    (∀ (cfg : Config) (v : String),
      cfg.OutputAll = false → cfg.ArrayTags = [] → cfg.StringTags = [] →
      cfg.BoolTags = [] → cfg.Format = FormatRaw →
      ParseTags cfg v = ("", none)) := by
  constructor
  · intro cfg v m hall h k
    rw [mem_keysOf_buildTagStrs (parseTags v) [] m h k]
    simp [keysOf, hall]
  · intro cfg v hall ha hs hb hfmt
    unfold ParseTags
    rw [buildTagStrs_skip_all hall ha hs hb]
    simp [format, hfmt, keysOf, sortStrings]

theorem C6_witness :
    (∀ k, k ∈ keysOf [("B", TagValue.str "2")] ↔
      (∃ g ∈ parseTags "A=1\nB=2", goToUpper g.1 = k) ∧
        targetContains { Format := FormatRaw, StringTags := ["B"] } k = true) ∧
    ParseTags { Format := FormatRaw } "A=1\nB=2" = ("", none) :=
  ⟨C6_selection_filtering.1 { Format := FormatRaw, StringTags := ["B"] } "A=1\nB=2"
      [("B", TagValue.str "2")] rfl rfl,
   C6_selection_filtering.2 { Format := FormatRaw } "A=1\nB=2" rfl rfl rfl rfl rfl⟩

/-- C7: raw format output — the emitted key sequence is ascending and is a
permutation of the selected keys; the output is empty for an empty selection;
booleans render as literal `true`/`false`; strings render verbatim; arrays
render by escaping each comma inside an element as `\,` and joining elements
with commas; the three-kind example produces exactly one sorted
newline-terminated `KEY=value` line per key. -/
theorem C7_raw_format :
    (∀ l : List String,
      List.Pairwise (fun a b => strLE a b = true) (sortStrings l) ∧
      List.Perm (sortStrings l) l) ∧
    format { Format := FormatRaw } [] = .ok "" ∧
    stringifyRaw (.bool true) = "true" ∧
    stringifyRaw (.bool false) = "false" ∧
    (∀ s, stringifyRaw (.str s) = s) ∧
    stringifyRaw (.arr ["a,b", "c"]) = "a\\,b,c" ∧
    format { Format := FormatRaw }
        [("B", .str "hi"), ("A", .bool true), ("C", .arr ["a,b", "c"])] =
      .ok "A=true\nB=hi\nC=a\\,b,c\n" := by
  refine ⟨?_, rfl, rfl, rfl, fun s => rfl, rfl, rfl⟩
  intro l
  exact ⟨sortStrings_pairwise l, sortStrings_perm l⟩

/-- C8: JSON format — the spec's end-to-end example renders with two-space
multi-line indentation when `PrettyPrint` is true and as a single compact
line when false (compact output never contains a newline, for any stored
map); `PrettyPrint` has no effect on raw format; keys are emitted in
ascending order regardless of encounter order (sorted, a permutation of the
stored keys, and every stored key is an upper-cased raw key, so the order is
insensitive to the case of the source keys); array values keep encounter
order and commas are not escaped. -/
theorem C8_json_format :
    ParseTags
        { Format := FormatJSON, ArrayTags := ["TAG_1"], OutputAll := true, PrettyPrint := true }
        "TAG_1=my-tag-value1\nTAG_1=my-tag-value2\nTAG_2=123143\n" =
      ("\x7b\n  \"TAG_1\": [\n    \"my-tag-value1\",\n    \"my-tag-value2\"\n  ],\n  \"TAG_2\": \"123143\"\n\x7d",
        none) ∧
    ParseTags { Format := FormatJSON, ArrayTags := ["TAG_1"], OutputAll := true }
        "TAG_1=my-tag-value1\nTAG_1=my-tag-value2\nTAG_2=123143\n" =
      ("\x7b\"TAG_1\":[\"my-tag-value1\",\"my-tag-value2\"],\"TAG_2\":\"123143\"\x7d", none) ∧
    (∀ ts, '\n' ∉ (jsonMarshal ts).data) ∧
    (∀ (cfg : Config) (ts : List (String × TagValue)) (b₁ b₂ : Bool),
      format { cfg with Format := FormatRaw, PrettyPrint := b₁ } ts =
        format { cfg with Format := FormatRaw, PrettyPrint := b₂ } ts) ∧
    jsonMarshal [("TAG_2", .str "2"), ("TAG_1", .str "1")] =
      "\x7b\"TAG_1\":\"1\",\"TAG_2\":\"2\"\x7d" ∧
    (∀ (cfg : Config) (v : String) (m : List (String × TagValue)),
      buildTagStrs cfg (parseTags v) [] = .ok m →
      ∀ k ∈ keysOf m, ∃ g ∈ parseTags v, goToUpper g.1 = k) ∧
    jsonValueCompact (.arr ["a,b"]) = "[\"a,b\"]" := by
  refine ⟨by decide, by decide, newline_not_mem_jsonMarshal, fun cfg ts b₁ b₂ => rfl,
    rfl, ?_, rfl⟩
  intro cfg v m h k hk
  rcases (mem_keysOf_buildTagStrs (parseTags v) [] m h k).mp hk with hacc | ⟨hex, _⟩
  · simp [keysOf] at hacc
  · exact hex

theorem C8_witness :
    ∀ k ∈ keysOf [("TAG_1", TagValue.str "v")],
      ∃ g ∈ parseTags "tag_1=v", goToUpper g.1 = k :=
  C8_json_format.2.2.2.2.2.1 { Format := FormatJSON, OutputAll := true } "tag_1=v"
    [("TAG_1", TagValue.str "v")] rfl

/-- C9: a configuration whose `-format` value does not normalize to `raw` or
`json` fails flag validation, so the invocation reports the configuration
error before any extraction work: the result is the flag error and is
independent of the fetched body text. -/
theorem C9_invalid_format :
    ∀ (cfg : Config) (body₁ body₂ : String),
      allowedFormats.contains (goToLower (goTrim cfg.Format)) = false →
      runParseCommand cfg body₁ =
        .error ("failed to parse flags: unsupported value for format flag: " ++
          goToLower (goTrim cfg.Format)) ∧
      runParseCommand cfg body₁ = runParseCommand cfg body₂ := by
  intro cfg body₁ body₂ h
  constructor
  · unfold runParseCommand afterParseFormat
    simp only [h]
    rfl
  · unfold runParseCommand afterParseFormat
    simp only [h]
    rfl

theorem C9_witness :
    runParseCommand { Format := "xml" } "K=v" =
      .error ("failed to parse flags: unsupported value for format flag: " ++
        goToLower (goTrim "xml")) ∧
    runParseCommand { Format := "xml" } "K=v" =
      runParseCommand { Format := "xml" } "TAG=1\nTAG2=2" :=
  C9_invalid_format { Format := "xml" } "K=v" "TAG=1\nTAG2=2" rfl

/-- C10: the key group of `tagPattern` may be empty, so the line `=foo` is
matched as the tag with the empty key; with `OutputAll = true` the raw output
is the line `=foo` and the JSON output is an object with the empty string as
its key. -/
theorem C10_empty_key :
    tagMatches "=foo" = [("", "foo")] ∧
    parseTags "=foo" = [("", ["foo"])] ∧
    ParseTags { Format := FormatRaw, OutputAll := true } "=foo" = ("=foo\n", none) ∧
    ParseTags { Format := FormatJSON, OutputAll := true } "=foo" =
      ("\x7b\"\":\"foo\"\x7d", none) := by
  refine ⟨by decide, by decide, by decide, by decide⟩

end Tagrep
